import Mathlib

/-!
Verification of the Foreman process supervisor.

The supervisor keeps a registry of services (name, shell command, run-once
flag, dependency names, health checks).  Its `Start` operation builds a
dependency graph, rejects cyclic graphs, topologically sorts the services and
starts them in order; signal handlers reap terminated children and restart
them according to policy; a per-service checker loop runs periodic health
checks.

This file gives a shallow embedding of those components and proves the
behavioural properties stated in the design document.  Go maps are embedded
as association lists (`List (String × _)`) with lookup returning the zero
value on a missing key, exactly as a Go map read does; the unspecified
iteration order of a Go map is embedded by quantifying over the iteration
order list.  External effects (process spawning, zombie status of a child,
outcomes of health-check commands) are supplied as oracle parameters.
-/

namespace Foreman
/-! ## Dependency graph

`dependencyGraph` in the source is `map[string][]string`: each declared
service name maps to the list of names it depends on. -/

abbrev Graph := List (String × List String)

/-- Adjacency of the graph: `g[v]` in Go, with the zero value `nil` for a
missing key. -/
def adj (g : Graph) (v : String) : List String := (g.lookup v).getD []

/-- The declared service names (the keys of the map). -/
def keys (g : Graph) : List String := g.map Prod.fst

/-- Every name the traversals can ever touch: the keys together with every
name occurring in some dependency list. -/
def univ (g : Graph) : List String := keys g ++ (g.map Prod.snd).flatten

/-- `Edge g u v` holds when service `u` depends on service `v`. -/
def Edge (g : Graph) (u v : String) : Prop := v ∈ adj g u

instance (g : Graph) (u v : String) : Decidable (Edge g u v) := by
  unfold Edge; infer_instance

/-- The graph has a directed cycle. -/
def Cyclic (g : Graph) : Prop := ∃ v, Relation.TransGen (Edge g) v v

/-- The graph has no directed cycle. -/
def Acyclic (g : Graph) : Prop := ∀ v, ¬ Relation.TransGen (Edge g) v v

/-! ## The postorder output ordering property

`depsBefore g l` says: at every occurrence of a vertex `w` in `l`, every
dependency of `w` already occurs strictly earlier. -/

def depsBefore (g : Graph) (l : List String) : Prop :=
  ∀ p w q, l = p ++ w :: q → ∀ c ∈ adj g w, c ∈ p

/-! ## Topological sort (`topSort` in the source)

The source marks a vertex `visited` on entry, recurses into its dependencies
and appends the vertex afterwards (depth-first postorder).  The recursion is
embedded with a fuel argument; fuel `(univ g).length + 1` is shown to be
enough, so the embedding computes exactly what the unbounded Go recursion
does.  The arbitrary iteration order over the map's keys is an explicit
`roots` parameter. -/

structure TopState where
  visited : List String
  out : List String

def topDfs (g : Graph) : Nat → String → TopState → TopState
  | 0, _, s => s
  | fuel + 1, v, s =>
    if v ∈ s.visited then s
    else
      TopState.mk
        ((adj g v).foldl (fun t c => topDfs g fuel c t) ⟨v :: s.visited, s.out⟩).visited
        (((adj g v).foldl (fun t c => topDfs g fuel c t) ⟨v :: s.visited, s.out⟩).out ++ [v])

def topSort (g : Graph) (roots : List String) : List String :=
  (roots.foldl (fun s r => topDfs g ((univ g).length + 1) r s) ⟨[], []⟩).out

/-- Number of not-yet-visited vertices, the measure showing the fuel never
runs out. -/
def cntT (g : Graph) (vis : List String) : Nat :=
  ((univ g).toFinset.filter (fun x => x ∉ vis)).card

/-- Invariant carried through the traversal: the output is dependency-ordered
and only contains entered vertices. -/
def TopInv (g : Graph) (s : TopState) : Prop :=
  depsBefore g s.out ∧ ∀ w ∈ s.out, w ∈ s.visited

/-- What one completed `dfs` call guarantees: the invariant still holds, the
visited set only grew, the output was only extended, the set of entered but
not yet emitted vertices (the implicit recursion stack) is unchanged, and the
visited vertex has been emitted. -/
def TopPost (g : Graph) (v : String) (s s' : TopState) : Prop :=
  TopInv g s' ∧
  (∀ w ∈ s.visited, w ∈ s'.visited) ∧
  (∃ d, s'.out = s.out ++ d) ∧
  (∀ w, (w ∈ s'.visited ∧ w ∉ s'.out) ↔ (w ∈ s.visited ∧ w ∉ s.out)) ∧
  v ∈ s'.out

/-! ## Cycle detection (`isCyclic` in the source)

Three-colour depth-first traversal: `0` not visited, `1` currently visiting,
`2` visited.  The `state` map is embedded as an association list read with
default `0` (a Go map read of a missing key) and written by prepending (the
later binding shadows the earlier one, as a Go map write overwrites). -/

def getSt (m : List (String × Nat)) (v : String) : Nat := (m.lookup v).getD 0

def setSt (m : List (String × Nat)) (v : String) (st : Nat) : List (String × Nat) :=
  (v, st) :: m

structure CycState where
  st : List (String × Nat)
  cyclic : Bool

def cycDfs (g : Graph) : Nat → String → CycState → CycState
  | 0, _, s => s
  | fuel + 1, v, s =>
    if getSt s.st v = 2 then s
    else if getSt s.st v = 1 then ⟨s.st, true⟩
    else
      CycState.mk
        (setSt ((adj g v).foldl (fun t c => cycDfs g fuel c t) ⟨setSt s.st v 1, s.cyclic⟩).st v 2)
        ((adj g v).foldl (fun t c => cycDfs g fuel c t) ⟨setSt s.st v 1, s.cyclic⟩).cyclic

def isCyclic (g : Graph) (roots : List String) : Bool :=
  (roots.foldl (fun s r => cycDfs g ((univ g).length + 1) r s) ⟨[], false⟩).cyclic

/-- A vertex the traversal has not yet entered (any status other than
in-progress or done behaves as "not visited" in the source's comparisons). -/
def whiteSt (m : List (String × Nat)) (w : String) : Prop :=
  getSt m w ≠ 1 ∧ getSt m w ≠ 2

instance (m : List (String × Nat)) (w : String) : Decidable (whiteSt m w) := by
  unfold whiteSt; infer_instance

/-- Number of white vertices, the fuel measure of the cycle detector. -/
def cntC (g : Graph) (m : List (String × Nat)) : Nat :=
  ((univ g).toFinset.filter (fun x => whiteSt m x)).card

/-- What one completed `dfs` call of the cycle detector guarantees.  `fin` and
`fin'` are ghost finish lists: the done (colour `2`) vertices in the order
they were finished.  While the cyclic flag is still false the finish list is
dependency-ordered, which is what makes a false final answer imply
acyclicity. -/
def CycPost (g : Graph) (v : String) (s s' : CycState) (fin fin' : List String) : Prop :=
  (∀ w, getSt s'.st w = 1 ↔ getSt s.st w = 1) ∧
  (∀ w, getSt s.st w = 2 → getSt s'.st w = 2) ∧
  (s.cyclic = true → s'.cyclic = true) ∧
  (s'.cyclic = true → Cyclic g) ∧
  (∀ w, getSt s'.st w = 2 ↔ w ∈ fin') ∧
  (s'.cyclic = false → depsBefore g fin') ∧
  (∃ d, fin' = fin ++ d) ∧
  (getSt s.st v ≠ 1 → getSt s'.st v = 2) ∧
  (getSt s.st v = 1 → s'.cyclic = true)

/-! ## The supervisor

`Foreman` holds the registry (a Go map from service name to `Service`) and
the global activity flag.  A Go map read of a missing key yields the zero
value of `Service`; a write overwrites in place (or inserts).  Process
spawning (`exec.Command(...).Start()`) is an external effect, embedded as an
oracle `Option Nat`: `some pid` is a successful spawn, `none` a spawn
failure. -/

structure Checks where
  cmd : String
  tcpPorts : List String
  udpPorts : List String
deriving DecidableEq

structure Service where
  serviceName : String
  active : Bool
  process : Option Nat
  cmd : String
  runOnce : Bool
  deps : List String
  checks : Checks
deriving DecidableEq

/-- The zero value of `Service`, what a Go map read returns for a missing
key. -/
def zeroService : Service :=
  Service.mk "" false none "" false [] (Checks.mk "" [] [])

structure Foreman where
  services : List (String × Service)
  active : Bool
deriving DecidableEq

def getService (m : List (String × Service)) (name : String) : Service :=
  (m.lookup name).getD zeroService

/-- Go map write: overwrite the binding if the key exists, insert it
otherwise.  Either way the set of keys a later range-iteration sees is the
Go-map key set. -/
def setService (m : List (String × Service)) (name : String) (s : Service) :
    List (String × Service) :=
  if (m.lookup name).isSome then
    m.map (fun p => if p.1 = name then (p.1, s) else p)
  else m ++ [(name, s)]

inductive ForemanError
  | brokenDependency
  | cyclicDependency
  | spawnError
deriving DecidableEq

/-- `checkDeps`: every declared dependency of the service must currently be
active in the registry; `true` means the nil error in Go. -/
def checkDeps (f : Foreman) (serviceName : String) : Bool :=
  (getService f.services serviceName).deps.all
    (fun depName => (getService f.services depName).active)

structure StartResult where
  foreman : Foreman
  err : Option ForemanError
  spawnAttempted : Bool
deriving DecidableEq

/-- `startService`: fetch the service, verify its dependencies, spawn the
command (oracle), and only on success record the process and the active flag
back into the registry.  `spawnAttempted` records whether the spawn step was
reached at all. -/
def startService (f : Foreman) (spawn : Option Nat) (serviceName : String) :
    StartResult :=
  if checkDeps f serviceName = false then
    StartResult.mk f (some ForemanError.brokenDependency) false
  else
    match spawn with
    | none => StartResult.mk f (some ForemanError.spawnError) true
    | some pid =>
      StartResult.mk
        (Foreman.mk
          (setService f.services serviceName
            (Service.mk (getService f.services serviceName).serviceName true
              (some pid) (getService f.services serviceName).cmd
              (getService f.services serviceName).runOnce
              (getService f.services serviceName).deps
              (getService f.services serviceName).checks))
          f.active)
        none true

/-- `buildDependencyGraph`: map every declared service name to its
dependency list. -/
def buildDependencyGraph (f : Foreman) : Graph :=
  f.services.map (fun p => (p.1, p.2.deps))

structure StartAllResult where
  foreman : Foreman
  err : Option ForemanError
  spawned : List String
deriving DecidableEq

/-- The startup loop of `Start`: start each service of the topological order
in turn and abort on the first error.  `spawned` lists the services whose
spawn step was reached. -/
def startAll (spawn : String → Option Nat) :
    List String → Foreman → StartAllResult
  | [], f => StartAllResult.mk f none []
  | name :: rest, f =>
    match startService f (spawn name) name with
    | StartResult.mk f1 (some e) att =>
      StartAllResult.mk f1 (some e) (if att then [name] else [])
    | StartResult.mk f1 none att =>
      StartAllResult.mk (startAll spawn rest f1).foreman
        (startAll spawn rest f1).err
        ((if att then [name] else []) ++ (startAll spawn rest f1).spawned)

/-- `Start` up to its signal loop: build the graph, reject a cyclic graph
with no service started, otherwise run the startup loop over the topological
order.  The subsequent signal loop is embedded separately by
`sigChildHandler` and `sigIntHandler`. -/
def start (f : Foreman) (spawn : String → Option Nat) (order : List String) :
    StartAllResult :=
  if isCyclic (buildDependencyGraph f) order = true then
    StartAllResult.mk f (some ForemanError.cyclicDependency) []
  else
    startAll spawn (topSort (buildDependencyGraph f) order) f

/-- The `service.active = false` assignment of the child handler: a copy of
the service with the active flag cleared. -/
def deactivate (s : Service) : Service :=
  Service.mk s.serviceName false s.process s.cmd s.runOnce s.deps s.checks

structure HandleResult where
  foreman : Foreman
  restartInvoked : Bool
  spawnAttempted : Bool
deriving DecidableEq

/-- The body of `sigChildHandler` for one registry entry: if the child is a
zombie (external observation), clear the copy's active flag, reap, and if
the service is not run-once while the system is active, call `startService`
again; finally write the stale deactivated copy back (exactly as the source
does, after the restart).  `restartInvoked` records whether `startService`
was called. -/
def handleChildService (f : Foreman) (spawn : Option Nat) (serviceName : String)
    (isZombie : Bool) : HandleResult :=
  if isZombie = false then HandleResult.mk f false false
  else
    if (deactivate (getService f.services serviceName)).runOnce = false ∧
        f.active = true then
      HandleResult.mk
        (Foreman.mk
          (setService
            (startService f spawn
              (deactivate (getService f.services serviceName)).serviceName).foreman.services
            serviceName (deactivate (getService f.services serviceName)))
          (startService f spawn
            (deactivate (getService f.services serviceName)).serviceName).foreman.active)
        true
        (startService f spawn
          (deactivate (getService f.services serviceName)).serviceName).spawnAttempted
    else
      HandleResult.mk
        (Foreman.mk (setService f.services serviceName
          (deactivate (getService f.services serviceName))) f.active)
        false false

/-- The full `sigChildHandler` loop over the registry in some iteration
order; returns the final state and the services for which a restart was
invoked. -/
def sigChildHandler (zombie : String → Bool) (spawn : String → Option Nat) :
    List String → Foreman → Foreman × List String
  | [], f => (f, [])
  | name :: rest, f =>
    ((sigChildHandler zombie spawn rest
        (handleChildService f (spawn name) name (zombie name)).foreman).1,
      (if (handleChildService f (spawn name) name (zombie name)).restartInvoked
        then [name] else []) ++
        (sigChildHandler zombie spawn rest
          (handleChildService f (spawn name) name (zombie name)).foreman).2)

/-- `sigIntHandler`: clear the system-active flag.  Forwarding the interrupt
to the children and exiting the process are external effects with no further
registry state. -/
def sigIntHandler (f : Foreman) : Foreman :=
  Foreman.mk f.services false

/-! ## The health checker

One tick of the `checker` loop: the liveness probe (`kill(pid, 0)`), then
the dependency check, the command check and the two port checks, each of
which sends one interrupt signal to the service's process on failure.  The
outcomes of the external probes are oracle fields. -/

structure TickOracle where
  alive : Bool
  cmdOk : Bool
  tcpOk : Bool
  udpOk : Bool
deriving DecidableEq

/-- One tick: `true` in the first component means the loop returned (the
liveness probe found the process gone); the second component counts the
interrupt signals sent during the tick, one per failed check category. -/
def checkerTick (f : Foreman) (serviceName : String) (t : TickOracle) :
    Bool × Nat :=
  if t.alive = false then (true, 0)
  else
    (false,
      (if checkDeps f serviceName = true then 0 else 1) +
        (if t.cmdOk = true then 0 else 1) +
        (if t.tcpOk = true then 0 else 1) +
        (if t.udpOk = true then 0 else 1))

/-- The checker loop over a finite trace of tick observations: runs tick
after tick, stopping only when a tick's liveness probe fails; returns the
total number of interrupt signals sent and whether the loop returned. -/
def checkerLoop (f : Foreman) (serviceName : String) :
    List TickOracle → Nat × Bool
  | [] => (0, false)
  | t :: rest =>
    if (checkerTick f serviceName t).1 then ((checkerTick f serviceName t).2, true)
    else
      ((checkerTick f serviceName t).2 + (checkerLoop f serviceName rest).1,
        (checkerLoop f serviceName rest).2)

/-! ## Example registries used by the witnesses -/

def exChecks : Checks := Checks.mk "" [] []

def webService : Service :=
  Service.mk "web" false none "./web" false ["db"] exChecks

def dbService : Service :=
  Service.mk "db" false none "./db" false [] exChecks

def jobService : Service :=
  Service.mk "job" false none "./job" true [] exChecks

def exRegistry : Foreman :=
  Foreman.mk [("web", webService), ("db", dbService), ("job", jobService)] true

def exStopped : Foreman :=
  Foreman.mk [("web", webService), ("db", dbService), ("job", jobService)] false

def aService : Service :=
  Service.mk "a" false none "./a" false ["b"] exChecks

def bService : Service :=
  Service.mk "b" false none "./b" false ["a"] exChecks

def exCyclicForeman : Foreman :=
  Foreman.mk [("a", aService), ("b", bService)] true

def orphanService : Service :=
  Service.mk "orphan" false none "./orphan" false ["ghost"] exChecks

def exOrphan : Foreman :=
  Foreman.mk [("orphan", orphanService), ("db", dbService)] true

lemma lookup_mem {g : Graph} {v : String} {l : List String}
    (h : g.lookup v = some l) : (v, l) ∈ g := by
  induction g with
  | nil => simp [List.lookup] at h
  | cons p rest ih =>
    rcases p with ⟨k, b⟩
    rw [List.lookup_cons] at h
    rcases hvk : (v == k) with _ | _
    · simp [hvk] at h
      exact List.mem_cons_of_mem _ (ih h)
    · simp [hvk] at h
      have : v = k := beq_iff_eq.mp hvk
      subst this
      subst h
      exact List.mem_cons_self _ _

lemma mem_keys_of_lookup {g : Graph} {v : String} {l : List String}
    (h : g.lookup v = some l) : v ∈ keys g := by
  have := lookup_mem h
  exact List.mem_map.mpr ⟨(v, l), this, rfl⟩

lemma lookup_eq_none {g : Graph} {v : String} (h : v ∉ keys g) :
    g.lookup v = none := by
  rcases hl : g.lookup v with _ | l
  · rfl
  · exact absurd (mem_keys_of_lookup hl) h

lemma adj_eq_nil_of_not_mem_keys {g : Graph} {v : String} (h : v ∉ keys g) :
    adj g v = [] := by
  unfold adj
  rw [lookup_eq_none h]
  rfl

lemma keys_subset_univ (g : Graph) : ∀ v ∈ keys g, v ∈ univ g := by
  intro v hv
  exact List.mem_append_left _ hv

lemma mem_univ_of_adj {g : Graph} {v c : String} (h : c ∈ adj g v) :
    c ∈ univ g := by
  unfold adj at h
  rcases hl : g.lookup v with _ | l
  · rw [hl] at h; simp at h
  · rw [hl] at h
    have hm := lookup_mem hl
    refine List.mem_append_right _ ?_
    exact List.mem_flatten.mpr ⟨l, List.mem_map.mpr ⟨(v, l), hm, rfl⟩, h⟩

lemma mem_univ_of_not_adj_nil {g : Graph} {v : String} (h : adj g v ≠ []) :
    v ∈ univ g := by
  by_contra hv
  exact h (adj_eq_nil_of_not_mem_keys (fun hk => hv (keys_subset_univ g v hk)))

/-! ## Acyclicity from a rank function -/

lemma rank_lt_of_transGen {g : Graph} {rank : String → Nat}
    (h : ∀ u v, Edge g u v → rank v < rank u) {u v : String}
    (ht : Relation.TransGen (Edge g) u v) : rank v < rank u := by
  induction ht with
  | single he => exact h _ _ he
  | tail _ he ih => exact lt_trans (h _ _ he) ih

lemma acyclic_of_rank (g : Graph) (rank : String → Nat)
    (h : ∀ u v, Edge g u v → rank v < rank u) : Acyclic g := by
  intro v hv
  exact lt_irrefl _ (rank_lt_of_transGen h hv)

/-- Acyclicity from a rank decreasing along every declared adjacency entry;
the hypothesis is decidable for a concrete graph. -/
lemma acyclic_of_entry_rank (g : Graph) (rank : String → Nat)
    (h : ∀ p ∈ g, ∀ c ∈ p.2, rank c < rank p.1) : Acyclic g := by
  refine acyclic_of_rank g rank ?_
  intro u v he
  unfold Edge adj at he
  rcases hl : g.lookup u with _ | l
  · rw [hl] at he; simp at he
  · rw [hl] at he
    exact h (u, l) (lookup_mem hl) v he

/-! ## Lists: first occurrences and index ordering -/

lemma first_occurrence {α : Type} {a : α} {l : List α} (h : a ∈ l) :
    ∃ p q, l = p ++ a :: q ∧ a ∉ p := by
  induction l with
  | nil => simp at h
  | cons b rest ih =>
    by_cases hba : b = a
    · subst hba
      exact ⟨[], rest, rfl, by simp⟩
    · have : a ∈ rest := by
        rcases List.mem_cons.mp h with h1 | h1
        · exact absurd h1.symm hba
        · exact h1
      rcases ih this with ⟨p, q, hpq, hnp⟩
      refine ⟨b :: p, q, by rw [hpq]; rfl, ?_⟩
      intro hc
      rcases List.mem_cons.mp hc with h1 | h1
      · exact hba h1.symm
      · exact hnp h1

lemma snoc_inj {α : Type} {p q : List α} {a b : α}
    (h : p ++ [a] = q ++ [b]) : p = q ∧ a = b := by
  have hlen : p.length = q.length := by
    have := congrArg List.length h
    simp at this
    exact this
  rcases List.append_inj h hlen with ⟨h1, h2⟩
  exact ⟨h1, by simpa using h2⟩

lemma indexOf_append_cons {a : α} [DecidableEq α] {p q : List α}
    (h : a ∉ p) : List.indexOf a (p ++ a :: q) = p.length := by
  induction p with
  | nil => simp
  | cons b rest ih =>
    have hba : b ≠ a := fun hc => h (by rw [hc]; exact List.mem_cons_self _ _)
    have hnr : a ∉ rest := fun hc => h (List.mem_cons_of_mem _ hc)
    rw [List.cons_append, List.indexOf_cons_ne _ hba, ih hnr]
    rfl

lemma indexOf_append_left {a : α} [DecidableEq α] {p q : List α}
    (h : a ∈ p) : List.indexOf a (p ++ q) = List.indexOf a p := by
  induction p with
  | nil => simp at h
  | cons b rest ih =>
    by_cases hba : b = a
    · subst hba; simp
    · have : a ∈ rest := by
        rcases List.mem_cons.mp h with h1 | h1
        · exact absurd h1.symm hba
        · exact h1
      rw [List.cons_append, List.indexOf_cons_ne _ hba,
        List.indexOf_cons_ne _ hba, ih this]

lemma depsBefore_nil (g : Graph) : depsBefore g [] := by
  intro p w q h
  exact absurd h (by simp)

lemma depsBefore_append {g : Graph} {l : List String} {v : String}
    (hl : depsBefore g l) (hv : ∀ c ∈ adj g v, c ∈ l) :
    depsBefore g (l ++ [v]) := by
  intro p w q hpq c hc
  rcases q.eq_nil_or_concat with hq | ⟨q', x, hq⟩
  · subst hq
    rcases snoc_inj hpq with ⟨h1, h2⟩
    subst h1; subst h2
    exact hv c hc
  · subst hq
    rw [List.concat_eq_append] at hpq
    have hpq' : (p ++ w :: q') ++ [x] = l ++ [v] := by
      simp [hpq]
    rcases snoc_inj hpq' with ⟨h1, _⟩
    exact hl p w q' h1.symm c hc

lemma indexOf_lt_of_depsBefore {g : Graph} {l : List String} {u v : String}
    (hdb : depsBefore g l) (hu : u ∈ l) (he : Edge g u v) :
    v ∈ l ∧ List.indexOf v l < List.indexOf u l := by
  rcases first_occurrence hu with ⟨p, q, hpq, hnp⟩
  have hvp : v ∈ p := hdb p u q hpq v he
  constructor
  · rw [hpq]; exact List.mem_append_left _ hvp
  · rw [hpq, indexOf_append_cons hnp]
    have : List.indexOf v (p ++ u :: q) = List.indexOf v p :=
      indexOf_append_left hvp
    rw [this]
    exact List.indexOf_lt_length.mpr hvp

lemma acyclic_of_depsBefore {g : Graph} {l : List String}
    (hdb : depsBefore g l) (hk : ∀ u ∈ keys g, u ∈ l) : Acyclic g := by
  refine acyclic_of_rank g (fun w => List.indexOf w l) ?_
  intro u v he
  have hu : u ∈ l := by
    refine hk u ?_
    have : adj g u ≠ [] := fun hnil => by
      unfold Edge at he; rw [hnil] at he; simp at he
    unfold adj at this
    rcases hl : g.lookup u with _ | l'
    · rw [hl] at this; simp at this
    · exact mem_keys_of_lookup hl
  exact (indexOf_lt_of_depsBefore hdb hu he).2

lemma cntT_le (g : Graph) (vis : List String) :
    cntT g vis ≤ (univ g).length :=
  le_trans (Finset.card_filter_le _ _) (List.toFinset_card_le _)

lemma cntT_mono {g : Graph} {vis vis' : List String}
    (h : ∀ x ∈ vis, x ∈ vis') : cntT g vis' ≤ cntT g vis := by
  refine Finset.card_le_card ?_
  intro x hx
  rcases Finset.mem_filter.mp hx with ⟨hx1, hx2⟩
  exact Finset.mem_filter.mpr ⟨hx1, fun hc => hx2 (h x hc)⟩

lemma cntT_cons_lt {g : Graph} {vis : List String} {v : String}
    (hvu : v ∈ univ g) (hvv : v ∉ vis) : cntT g (v :: vis) < cntT g vis := by
  have hsub : (univ g).toFinset.filter (fun x => x ∉ v :: vis) ⊆
      ((univ g).toFinset.filter (fun x => x ∉ vis)).erase v := by
    intro x hx
    rcases Finset.mem_filter.mp hx with ⟨hx1, hx2⟩
    rw [List.mem_cons] at hx2
    push_neg at hx2
    exact Finset.mem_erase.mpr ⟨hx2.1, Finset.mem_filter.mpr ⟨hx1, hx2.2⟩⟩
  have hvmem : v ∈ (univ g).toFinset.filter (fun x => x ∉ vis) :=
    Finset.mem_filter.mpr ⟨List.mem_toFinset.mpr hvu, hvv⟩
  calc cntT g (v :: vis) ≤ (((univ g).toFinset.filter (fun x => x ∉ vis)).erase v).card :=
        Finset.card_le_card hsub
    _ < ((univ g).toFinset.filter (fun x => x ∉ vis)).card :=
        Finset.card_erase_lt_of_mem hvmem

lemma topFold_spec (g : Graph) (hacyc : Acyclic g) (fuel : Nat)
    (IH : ∀ v s, cntT g s.visited < fuel →
      (∀ w, w ∈ s.visited → w ∉ s.out → Relation.ReflTransGen (Edge g) w v) →
      (v ∈ s.visited → v ∈ s.out) →
      TopInv g s → TopPost g v s (topDfs g fuel v s)) :
    ∀ (cs : List String) (s : TopState),
      cntT g s.visited < fuel →
      (∀ w, w ∈ s.visited → w ∉ s.out → ∀ c ∈ cs, Relation.TransGen (Edge g) w c) →
      TopInv g s →
      TopInv g (cs.foldl (fun t c => topDfs g fuel c t) s) ∧
      (∀ w ∈ s.visited, w ∈ (cs.foldl (fun t c => topDfs g fuel c t) s).visited) ∧
      (∃ d, (cs.foldl (fun t c => topDfs g fuel c t) s).out = s.out ++ d) ∧
      (∀ w, (w ∈ (cs.foldl (fun t c => topDfs g fuel c t) s).visited ∧
             w ∉ (cs.foldl (fun t c => topDfs g fuel c t) s).out) ↔
            (w ∈ s.visited ∧ w ∉ s.out)) ∧
      (∀ c ∈ cs, c ∈ (cs.foldl (fun t c => topDfs g fuel c t) s).out) := by
  intro cs
  induction cs with
  | nil =>
    intro s hcnt hG hinv
    exact ⟨hinv, fun w hw => hw, ⟨[], by simp⟩, fun w => Iff.rfl, by simp⟩
  | cons c rest ih =>
    intro s hcnt hG hinv
    have hpost : TopPost g c s (topDfs g fuel c s) := by
      refine IH c s hcnt ?_ ?_ hinv
      · intro w hw1 hw2
        exact (hG w hw1 hw2 c (List.mem_cons_self _ _)).to_reflTransGen
      · intro hcv
        by_contra hco
        exact hacyc c (hG c hcv hco c (List.mem_cons_self _ _))
    obtain ⟨hinv1, hmono1, ⟨d1, hout1⟩, hgrey1, hcout⟩ := hpost
    have hstep : (c :: rest).foldl (fun t c => topDfs g fuel c t) s =
        rest.foldl (fun t c => topDfs g fuel c t) (topDfs g fuel c s) := by
      simp
    rw [hstep]
    have hrest := ih (topDfs g fuel c s)
      (lt_of_le_of_lt (cntT_mono hmono1) hcnt)
      (by
        intro w hw1 hw2 c' hc'
        have := (hgrey1 w).mp ⟨hw1, hw2⟩
        exact hG w this.1 this.2 c' (List.mem_cons_of_mem _ hc'))
      hinv1
    obtain ⟨hinv2, hmono2, ⟨d2, hout2⟩, hgrey2, hcs2⟩ := hrest
    refine ⟨hinv2, ?_, ?_, ?_, ?_⟩
    · intro w hw
      exact hmono2 w (hmono1 w hw)
    · exact ⟨d1 ++ d2, by rw [hout2, hout1, List.append_assoc]⟩
    · intro w
      exact (hgrey2 w).trans (hgrey1 w)
    · intro c' hc'
      rcases List.mem_cons.mp hc' with h1 | h1
      · subst h1
        rw [hout2]
        exact List.mem_append_left _ hcout
      · exact hcs2 c' h1

lemma topDfs_spec (g : Graph) (hacyc : Acyclic g) :
    ∀ (fuel : Nat) (v : String) (s : TopState),
      cntT g s.visited < fuel →
      (∀ w, w ∈ s.visited → w ∉ s.out → Relation.ReflTransGen (Edge g) w v) →
      (v ∈ s.visited → v ∈ s.out) →
      TopInv g s → TopPost g v s (topDfs g fuel v s) := by
  intro fuel
  induction fuel with
  | zero =>
    intro v s hcnt
    exact absurd hcnt (by omega)
  | succ fuel IH =>
    intro v s hcnt hgrey hvno hinv
    by_cases hv : v ∈ s.visited
    · rw [topDfs, if_pos hv]
      exact ⟨hinv, fun w hw => hw, ⟨[], by simp⟩, fun w => Iff.rfl, hvno hv⟩
    · rw [topDfs, if_neg hv]
      have hs1inv : TopInv g (⟨v :: s.visited, s.out⟩ : TopState) :=
        ⟨hinv.1, fun w hw => List.mem_cons_of_mem _ (hinv.2 w hw)⟩
      have hG1 : ∀ w, w ∈ v :: s.visited → w ∉ s.out →
          ∀ c ∈ adj g v, Relation.TransGen (Edge g) w c := by
        intro w hw1 hw2 c hc
        rcases List.mem_cons.mp hw1 with h1 | h1
        · subst h1
          exact Relation.TransGen.single hc
        · exact Relation.TransGen.tail' (hgrey w h1 hw2) hc
      by_cases hvu : v ∈ univ g
      · have hcnt1 : cntT g (v :: s.visited) < fuel := by
          have h1 : cntT g (v :: s.visited) < cntT g s.visited := cntT_cons_lt hvu hv
          have h2 : cntT g s.visited ≤ fuel := Nat.lt_succ_iff.mp hcnt
          omega
        have hfold := topFold_spec g hacyc fuel IH (adj g v) ⟨v :: s.visited, s.out⟩
          hcnt1 hG1 hs1inv
        obtain ⟨hinv2, hmono2, ⟨d2, hout2⟩, hgrey2, hcs2⟩ := hfold
        refine ⟨⟨?_, ?_⟩, ?_, ?_, ?_, ?_⟩
        · exact depsBefore_append hinv2.1 (fun c hc => hcs2 c hc)
        · intro w hw
          rcases List.mem_append.mp hw with h1 | h1
          · exact hinv2.2 w h1
          · rw [List.mem_singleton] at h1
            subst h1
            exact hmono2 w (List.mem_cons_self _ _)
        · intro w hw
          exact hmono2 w (List.mem_cons_of_mem _ hw)
        · exact ⟨d2 ++ [v], by rw [hout2]; simp⟩
        · intro w
          constructor
          · rintro ⟨hw1, hw2⟩
            have hwv : w ≠ v := by
              intro hc
              subst hc
              exact hw2 (List.mem_append_right _ (List.mem_singleton.mpr rfl))
            have hw2' : w ∉ ((adj g v).foldl (fun t c => topDfs g fuel c t)
                ⟨v :: s.visited, s.out⟩).out :=
              fun hc => hw2 (List.mem_append_left _ hc)
            have := (hgrey2 w).mp ⟨hw1, hw2'⟩
            rcases List.mem_cons.mp this.1 with h1 | h1
            · exact absurd h1 hwv
            · exact ⟨h1, this.2⟩
          · rintro ⟨hw1, hw2⟩
            have hwv : w ≠ v := fun hc => hv (hc ▸ hw1)
            have := (hgrey2 w).mpr ⟨List.mem_cons_of_mem _ hw1, hw2⟩
            refine ⟨this.1, ?_⟩
            intro hc
            rcases List.mem_append.mp hc with h1 | h1
            · exact this.2 h1
            · exact hwv (List.mem_singleton.mp h1)
        · exact List.mem_append_right _ (List.mem_singleton.mpr rfl)
      · have hadj : adj g v = [] :=
          adj_eq_nil_of_not_mem_keys (fun hk => hvu (keys_subset_univ g v hk))
        rw [hadj]
        simp only [List.foldl_nil]
        refine ⟨⟨?_, ?_⟩, ?_, ?_, ?_, ?_⟩
        · refine depsBefore_append hinv.1 ?_
          rw [hadj]
          intro c hc
          simp at hc
        · intro w hw
          rcases List.mem_append.mp hw with h1 | h1
          · exact List.mem_cons_of_mem _ (hinv.2 w h1)
          · rw [List.mem_singleton] at h1
            subst h1
            exact List.mem_cons_self _ _
        · intro w hw
          exact List.mem_cons_of_mem _ hw
        · exact ⟨[v], rfl⟩
        · intro w
          constructor
          · rintro ⟨hw1, hw2⟩
            have hwv : w ≠ v := by
              intro hc
              subst hc
              exact hw2 (List.mem_append_right _ (List.mem_singleton.mpr rfl))
            rcases List.mem_cons.mp hw1 with h1 | h1
            · exact absurd h1 hwv
            · exact ⟨h1, fun hc => hw2 (List.mem_append_left _ hc)⟩
          · rintro ⟨hw1, hw2⟩
            have hwv : w ≠ v := fun hc => hv (hc ▸ hw1)
            refine ⟨List.mem_cons_of_mem _ hw1, ?_⟩
            intro hc
            rcases List.mem_append.mp hc with h1 | h1
            · exact hw2 h1
            · exact hwv (List.mem_singleton.mp h1)
        · exact List.mem_append_right _ (List.mem_singleton.mpr rfl)

lemma topSort_fold_spec (g : Graph) (hacyc : Acyclic g) :
    ∀ (roots : List String) (s : TopState),
      TopInv g s →
      (∀ w ∈ s.visited, w ∈ s.out) →
      TopInv g (roots.foldl (fun t r => topDfs g ((univ g).length + 1) r t) s) ∧
      (∀ w ∈ (roots.foldl (fun t r => topDfs g ((univ g).length + 1) r t) s).visited,
        w ∈ (roots.foldl (fun t r => topDfs g ((univ g).length + 1) r t) s).out) ∧
      (∃ d, (roots.foldl (fun t r => topDfs g ((univ g).length + 1) r t) s).out = s.out ++ d) ∧
      (∀ r ∈ roots, r ∈ (roots.foldl (fun t r => topDfs g ((univ g).length + 1) r t) s).out) := by
  intro roots
  induction roots with
  | nil =>
    intro s hinv hng
    exact ⟨hinv, hng, ⟨[], by simp⟩, by simp⟩
  | cons r rest ih =>
    intro s hinv hng
    have hcnt : cntT g s.visited < (univ g).length + 1 :=
      Nat.lt_succ_of_le (cntT_le g s.visited)
    have hpost := topDfs_spec g hacyc ((univ g).length + 1) r s hcnt
      (fun w hw1 hw2 => absurd (hng w hw1) hw2)
      (fun hr => hng r hr) hinv
    obtain ⟨hinv1, hmono1, ⟨d1, hout1⟩, hgrey1, hrout⟩ := hpost
    have hng1 : ∀ w ∈ (topDfs g ((univ g).length + 1) r s).visited,
        w ∈ (topDfs g ((univ g).length + 1) r s).out := by
      intro w hw
      by_contra hc
      exact ((hgrey1 w).mp ⟨hw, hc⟩).2 (hng w ((hgrey1 w).mp ⟨hw, hc⟩).1)
    have hstep : (r :: rest).foldl (fun t r => topDfs g ((univ g).length + 1) r t) s =
        rest.foldl (fun t r => topDfs g ((univ g).length + 1) r t)
          (topDfs g ((univ g).length + 1) r s) := by
      simp
    rw [hstep]
    obtain ⟨hinv2, hng2, ⟨d2, hout2⟩, hroots2⟩ :=
      ih (topDfs g ((univ g).length + 1) r s) hinv1 hng1
    refine ⟨hinv2, hng2, ⟨d1 ++ d2, by rw [hout2, hout1, List.append_assoc]⟩, ?_⟩
    intro r' hr'
    rcases List.mem_cons.mp hr' with h1 | h1
    · subst h1
      rw [hout2]
      exact List.mem_append_left _ hrout
    · exact hroots2 r' h1

/-- The two facts `topSort` guarantees on an acyclic graph: dependency-ordered
output, and every root appears in the output. -/
lemma topSort_spec (g : Graph) (roots : List String) (hacyc : Acyclic g) :
    depsBefore g (topSort g roots) ∧ ∀ r ∈ roots, r ∈ topSort g roots := by
  have := topSort_fold_spec g hacyc roots ⟨[], []⟩
    ⟨depsBefore_nil g, by simp⟩ (by simp)
  exact ⟨this.1.1, this.2.2.2⟩

lemma getSt_set_same (m : List (String × Nat)) (v : String) (x : Nat) :
    getSt (setSt m v x) v = x := by
  simp [getSt, setSt, List.lookup_cons]

lemma getSt_set_ne (m : List (String × Nat)) {v w : String} (x : Nat)
    (h : w ≠ v) : getSt (setSt m v x) w = getSt m w := by
  simp only [getSt, setSt, List.lookup_cons]
  have : (w == v) = false := beq_eq_false_iff_ne.mpr h
  rw [this]

lemma cntC_le (g : Graph) (m : List (String × Nat)) :
    cntC g m ≤ (univ g).length :=
  le_trans (Finset.card_filter_le _ _) (List.toFinset_card_le _)

lemma cntC_mono {g : Graph} {m m' : List (String × Nat)}
    (h : ∀ x, whiteSt m' x → whiteSt m x) : cntC g m' ≤ cntC g m := by
  refine Finset.card_le_card ?_
  intro x hx
  rcases Finset.mem_filter.mp hx with ⟨hx1, hx2⟩
  exact Finset.mem_filter.mpr ⟨hx1, h x hx2⟩

lemma white_mono_of {m m' : List (String × Nat)}
    (hA : ∀ w, getSt m' w = 1 ↔ getSt m w = 1)
    (hB : ∀ w, getSt m w = 2 → getSt m' w = 2) :
    ∀ x, whiteSt m' x → whiteSt m x := by
  intro x hx
  constructor
  · intro h1
    exact hx.1 ((hA x).mpr h1)
  · intro h2
    exact hx.2 (hB x h2)

lemma cntC_set1_lt {g : Graph} {m : List (String × Nat)} {v : String}
    (hvu : v ∈ univ g) (hv0 : whiteSt m v) :
    cntC g (setSt m v 1) < cntC g m := by
  have hsub : (univ g).toFinset.filter (fun x => whiteSt (setSt m v 1) x) ⊆
      ((univ g).toFinset.filter (fun x => whiteSt m x)).erase v := by
    intro x hx
    rcases Finset.mem_filter.mp hx with ⟨hx1, hx2⟩
    have hxv : x ≠ v := by
      intro hc
      subst hc
      exact hx2.1 (getSt_set_same m x 1)
    rw [whiteSt, getSt_set_ne _ _ hxv] at hx2
    exact Finset.mem_erase.mpr ⟨hxv, Finset.mem_filter.mpr ⟨hx1, hx2⟩⟩
  have hvmem : v ∈ (univ g).toFinset.filter (fun x => whiteSt m x) :=
    Finset.mem_filter.mpr ⟨List.mem_toFinset.mpr hvu, hv0⟩
  calc cntC g (setSt m v 1) ≤
      (((univ g).toFinset.filter (fun x => whiteSt m x)).erase v).card :=
        Finset.card_le_card hsub
    _ < ((univ g).toFinset.filter (fun x => whiteSt m x)).card :=
        Finset.card_erase_lt_of_mem hvmem

lemma cycFold_spec (g : Graph) (fuel : Nat)
    (IH : ∀ v s fin, cntC g s.st < fuel →
      (∀ w, getSt s.st w = 1 → Relation.TransGen (Edge g) w v) →
      (∀ w, getSt s.st w = 2 ↔ w ∈ fin) →
      (s.cyclic = false → depsBefore g fin) →
      (s.cyclic = true → Cyclic g) →
      ∃ fin', CycPost g v s (cycDfs g fuel v s) fin fin') :
    ∀ (cs : List String) (s : CycState) (fin : List String),
      cntC g s.st < fuel →
      (∀ w, getSt s.st w = 1 → ∀ c ∈ cs, Relation.TransGen (Edge g) w c) →
      (∀ w, getSt s.st w = 2 ↔ w ∈ fin) →
      (s.cyclic = false → depsBefore g fin) →
      (s.cyclic = true → Cyclic g) →
      ∃ fin',
        (∀ w, getSt (cs.foldl (fun t c => cycDfs g fuel c t) s).st w = 1 ↔ getSt s.st w = 1) ∧
        (∀ w, getSt s.st w = 2 → getSt (cs.foldl (fun t c => cycDfs g fuel c t) s).st w = 2) ∧
        (s.cyclic = true → (cs.foldl (fun t c => cycDfs g fuel c t) s).cyclic = true) ∧
        ((cs.foldl (fun t c => cycDfs g fuel c t) s).cyclic = true → Cyclic g) ∧
        (∀ w, getSt (cs.foldl (fun t c => cycDfs g fuel c t) s).st w = 2 ↔ w ∈ fin') ∧
        ((cs.foldl (fun t c => cycDfs g fuel c t) s).cyclic = false → depsBefore g fin') ∧
        (∃ d, fin' = fin ++ d) ∧
        (∀ c ∈ cs, (cs.foldl (fun t c => cycDfs g fuel c t) s).cyclic = true ∨
          getSt (cs.foldl (fun t c => cycDfs g fuel c t) s).st c = 2) := by
  intro cs
  induction cs with
  | nil =>
    intro s fin hcnt hG hghost hdb hsound
    exact ⟨fin, fun w => Iff.rfl, fun w h => h, fun h => h, hsound,
      hghost, hdb, ⟨[], by simp⟩, by simp⟩
  | cons c rest ih =>
    intro s fin hcnt hG hghost hdb hsound
    obtain ⟨fin1, hA1, hB1, hD1, hE1, hF1, hG1, ⟨d1, hd1⟩, hI1, hJ1⟩ :=
      IH c s fin hcnt (fun w hw => hG w hw c (List.mem_cons_self _ _)) hghost hdb hsound
    have hstep : (c :: rest).foldl (fun t c => cycDfs g fuel c t) s =
        rest.foldl (fun t c => cycDfs g fuel c t) (cycDfs g fuel c s) := by
      simp
    rw [hstep]
    obtain ⟨fin2, hA2, hB2, hD2, hE2, hF2, hG2, ⟨d2, hd2⟩, hK2⟩ :=
      ih (cycDfs g fuel c s) fin1
        (lt_of_le_of_lt (cntC_mono (white_mono_of hA1 hB1)) hcnt)
        (fun w hw c' hc' => hG w ((hA1 w).mp hw) c' (List.mem_cons_of_mem _ hc'))
        hF1 hG1 hE1
    refine ⟨fin2, ?_, ?_, ?_, hE2, hF2, hG2,
      ⟨d1 ++ d2, by rw [hd2, hd1, List.append_assoc]⟩, ?_⟩
    · intro w
      exact (hA2 w).trans (hA1 w)
    · intro w hw
      exact hB2 w (hB1 w hw)
    · intro h
      exact hD2 (hD1 h)
    · intro c' hc'
      rcases List.mem_cons.mp hc' with h1 | h1
      · subst h1
        by_cases hcol : getSt s.st c' = 1
        · exact Or.inl (hD2 (hJ1 hcol))
        · exact Or.inr (hB2 c' (hI1 hcol))
      · exact hK2 c' h1

lemma cycDfs_spec (g : Graph) :
    ∀ (fuel : Nat) (v : String) (s : CycState) (fin : List String),
      cntC g s.st < fuel →
      (∀ w, getSt s.st w = 1 → Relation.TransGen (Edge g) w v) →
      (∀ w, getSt s.st w = 2 ↔ w ∈ fin) →
      (s.cyclic = false → depsBefore g fin) →
      (s.cyclic = true → Cyclic g) →
      ∃ fin', CycPost g v s (cycDfs g fuel v s) fin fin' := by
  intro fuel
  induction fuel with
  | zero =>
    intro v s fin hcnt
    exact absurd hcnt (by omega)
  | succ fuel IH =>
    intro v s fin hcnt hgray hghost hdb hsound
    by_cases hv2 : getSt s.st v = 2
    · rw [cycDfs, if_pos hv2]
      refine ⟨fin, fun w => Iff.rfl, fun w h => h, fun h => h, hsound,
        hghost, hdb, ⟨[], by simp⟩, fun _ => hv2, ?_⟩
      intro h1
      rw [h1] at hv2
      exact absurd hv2 (by omega)
    · by_cases hv1 : getSt s.st v = 1
      · rw [cycDfs, if_neg hv2, if_pos hv1]
        refine ⟨fin, fun w => Iff.rfl, fun w h => h, fun _ => rfl, ?_,
          hghost, ?_, ⟨[], by simp⟩, fun h => absurd hv1 h, fun _ => rfl⟩
        · intro _
          exact ⟨v, hgray v hv1⟩
        · intro h
          exact absurd h (by simp)
      · rw [cycDfs, if_neg hv2, if_neg hv1]
        have hG1 : ∀ w, getSt (setSt s.st v 1) w = 1 →
            ∀ c ∈ adj g v, Relation.TransGen (Edge g) w c := by
          intro w hw c hc
          by_cases hwv : w = v
          · subst hwv
            exact Relation.TransGen.single hc
          · rw [getSt_set_ne _ _ hwv] at hw
            exact (hgray w hw).tail hc
        have hghost1 : ∀ w, getSt (setSt s.st v 1) w = 2 ↔ w ∈ fin := by
          intro w
          by_cases hwv : w = v
          · subst hwv
            rw [getSt_set_same]
            constructor
            · intro h
              exact absurd h (by omega)
            · intro h
              exact absurd ((hghost w).mpr h) hv2
          · rw [getSt_set_ne _ _ hwv]
            exact hghost w
        by_cases hvu : v ∈ univ g
        · have hcnt1 : cntC g (setSt s.st v 1) < fuel := by
            have h1 := cntC_set1_lt hvu ⟨hv1, hv2⟩
            have h2 : cntC g s.st ≤ fuel := Nat.lt_succ_iff.mp hcnt
            omega
          obtain ⟨fin2, hA2, hB2, hD2, hE2, hF2, hG2, ⟨d2, hd2⟩, hK2⟩ :=
            cycFold_spec g fuel IH (adj g v) ⟨setSt s.st v 1, s.cyclic⟩ fin
              hcnt1 hG1 hghost1 hdb hsound
          refine ⟨fin2 ++ [v], ?_, ?_, ?_, hE2, ?_, ?_,
            ⟨d2 ++ [v], by rw [hd2, List.append_assoc]⟩, ?_, ?_⟩
          · intro w
            by_cases hwv : w = v
            · subst hwv
              constructor
              · intro h
                rw [getSt_set_same] at h
                exact absurd h (by omega)
              · intro h
                exact absurd h hv1
            · rw [getSt_set_ne _ _ hwv]
              exact (hA2 w).trans (by rw [getSt_set_ne _ _ hwv])
          · intro w hw
            have hwv : w ≠ v := by
              intro hc
              subst hc
              exact hv2 hw
            rw [getSt_set_ne _ _ hwv]
            refine hB2 w ?_
            rw [getSt_set_ne _ _ hwv]
            exact hw
          · exact hD2
          · intro w
            by_cases hwv : w = v
            · subst hwv
              rw [getSt_set_same]
              simp
            · rw [getSt_set_ne _ _ hwv, List.mem_append, List.mem_singleton]
              rw [hF2 w]
              constructor
              · intro h
                exact Or.inl h
              · intro h
                rcases h with h | h
                · exact h
                · exact absurd h hwv
          · intro hfl
            refine depsBefore_append (hG2 hfl) ?_
            intro c hc
            rcases hK2 c hc with h | h
            · rw [hfl] at h
              exact absurd h (by simp)
            · exact (hF2 c).mp h
          · intro _
            exact getSt_set_same _ _ _
          · intro h
            exact absurd h hv1
        · have hadj : adj g v = [] :=
            adj_eq_nil_of_not_mem_keys (fun hk => hvu (keys_subset_univ g v hk))
          rw [hadj]
          simp only [List.foldl_nil]
          refine ⟨fin ++ [v], ?_, ?_, fun h => h, hsound, ?_, ?_,
            ⟨[v], rfl⟩, ?_, ?_⟩
          · intro w
            by_cases hwv : w = v
            · subst hwv
              constructor
              · intro h
                rw [getSt_set_same] at h
                exact absurd h (by omega)
              · intro h
                exact absurd h hv1
            · rw [getSt_set_ne _ _ hwv, getSt_set_ne _ _ hwv]
          · intro w hw
            have hwv : w ≠ v := by
              intro hc
              subst hc
              exact hv2 hw
            rw [getSt_set_ne _ _ hwv, getSt_set_ne _ _ hwv]
            exact hw
          · intro w
            by_cases hwv : w = v
            · subst hwv
              rw [getSt_set_same]
              simp
            · rw [getSt_set_ne _ _ hwv, getSt_set_ne _ _ hwv,
                List.mem_append, List.mem_singleton]
              rw [hghost w]
              constructor
              · intro h
                exact Or.inl h
              · intro h
                rcases h with h | h
                · exact h
                · exact absurd h hwv
          · intro hfl
            refine depsBefore_append (hdb hfl) ?_
            rw [hadj]
            intro c hc
            exact absurd hc (by simp)
          · intro _
            exact getSt_set_same _ _ _
          · intro h
            exact absurd h hv1

lemma cycRoots_spec (g : Graph) :
    ∀ (roots : List String) (s : CycState) (fin : List String),
      (∀ w, getSt s.st w ≠ 1) →
      (∀ w, getSt s.st w = 2 ↔ w ∈ fin) →
      (s.cyclic = false → depsBefore g fin) →
      (s.cyclic = true → Cyclic g) →
      ∃ fin',
        (∀ w, getSt (roots.foldl (fun s r => cycDfs g ((univ g).length + 1) r s) s).st w ≠ 1) ∧
        (∀ w, getSt s.st w = 2 →
          getSt (roots.foldl (fun s r => cycDfs g ((univ g).length + 1) r s) s).st w = 2) ∧
        (∀ w, getSt (roots.foldl (fun s r => cycDfs g ((univ g).length + 1) r s) s).st w = 2 ↔
          w ∈ fin') ∧
        ((roots.foldl (fun s r => cycDfs g ((univ g).length + 1) r s) s).cyclic = false →
          depsBefore g fin') ∧
        ((roots.foldl (fun s r => cycDfs g ((univ g).length + 1) r s) s).cyclic = true →
          Cyclic g) ∧
        (∀ r ∈ roots, r ∈ fin') := by
  intro roots
  induction roots with
  | nil =>
    intro s fin hng hghost hdb hsound
    exact ⟨fin, hng, fun w h => h, hghost, hdb, hsound, by simp⟩
  | cons r rest ih =>
    intro s fin hng hghost hdb hsound
    have hcnt : cntC g s.st < (univ g).length + 1 :=
      Nat.lt_succ_of_le (cntC_le g s.st)
    obtain ⟨fin1, hA1, hB1, hD1, hE1, hF1, hG1, ⟨d1, hd1⟩, hI1, hJ1⟩ :=
      cycDfs_spec g ((univ g).length + 1) r s fin hcnt
        (fun w hw => absurd hw (hng w)) hghost hdb hsound
    have hstep : (r :: rest).foldl (fun s r => cycDfs g ((univ g).length + 1) r s) s =
        rest.foldl (fun s r => cycDfs g ((univ g).length + 1) r s)
          (cycDfs g ((univ g).length + 1) r s) := by
      simp
    rw [hstep]
    have hng1 : ∀ w, getSt (cycDfs g ((univ g).length + 1) r s).st w ≠ 1 :=
      fun w hw => hng w ((hA1 w).mp hw)
    obtain ⟨fin2, hng2, hB2, hF2, hG2, hE2, hroots2⟩ :=
      ih (cycDfs g ((univ g).length + 1) r s) fin1 hng1 hF1 hG1 hE1
    refine ⟨fin2, hng2, ?_, hF2, hG2, hE2, ?_⟩
    · intro w hw
      exact hB2 w (hB1 w hw)
    · intro r' hr'
      rcases List.mem_cons.mp hr' with h1 | h1
      · subst h1
        exact (hF2 r').mp (hB2 r' (hI1 (hng r')))
      · exact hroots2 r' h1

lemma getSt_nil (w : String) : getSt [] w = 0 := rfl

lemma isCyclic_sound {g : Graph} {roots : List String}
    (h : isCyclic g roots = true) : Cyclic g := by
  obtain ⟨fin', hng, hB, hF, hG, hE, hroots⟩ :=
    cycRoots_spec g roots ⟨[], false⟩ []
      (fun w => by rw [getSt_nil]; omega)
      (fun w => by rw [getSt_nil]; simp)
      (fun _ => depsBefore_nil g)
      (fun hc => by simp at hc)
  exact hE h

lemma isCyclic_complete {g : Graph} {roots : List String}
    (hk : ∀ k ∈ keys g, k ∈ roots) (hc : Cyclic g) : isCyclic g roots = true := by
  by_contra h
  rw [Bool.not_eq_true] at h
  obtain ⟨fin', hng, hB, hF, hG, hE, hroots⟩ :=
    cycRoots_spec g roots ⟨[], false⟩ []
      (fun w => by rw [getSt_nil]; omega)
      (fun w => by rw [getSt_nil]; simp)
      (fun _ => depsBefore_nil g)
      (fun hcy => by simp at hcy)
  have hacyc : Acyclic g :=
    acyclic_of_depsBefore (hG h) (fun u hu => hroots u (hk u hu))
  obtain ⟨v, hv⟩ := hc
  exact hacyc v hv

/-- C1: For every acyclic dependency graph and every declared edge "u depends
on v" (both u and v declared services), the list returned by `topSort` places
v at an earlier index than u, whatever iteration order the declared services
are visited in. -/
theorem topSort_places_dependency_earlier (g : Graph) (roots : List String)
    (hacyc : Acyclic g) (u v : String)
    (hu : u ∈ keys g) (hv : v ∈ keys g)
    (hedge : Edge g u v) (hur : u ∈ roots) :
    v ∈ topSort g roots ∧ u ∈ topSort g roots ∧
      List.indexOf v (topSort g roots) < List.indexOf u (topSort g roots) := by
  obtain ⟨hdb, hcomp⟩ := topSort_spec g roots hacyc
  have humem : u ∈ topSort g roots := hcomp u hur
  obtain ⟨hvmem, hlt⟩ := indexOf_lt_of_depsBefore hdb humem hedge
  exact ⟨hvmem, humem, hlt⟩

theorem topSort_places_dependency_earlier_witness :
    "redis" ∈ topSort [("sleep", ["ping"]), ("ping", ["redis"]), ("redis", [])]
        ["sleep", "ping", "redis"] ∧
      "ping" ∈ topSort [("sleep", ["ping"]), ("ping", ["redis"]), ("redis", [])]
        ["sleep", "ping", "redis"] ∧
      List.indexOf "redis" (topSort [("sleep", ["ping"]), ("ping", ["redis"]), ("redis", [])]
        ["sleep", "ping", "redis"]) <
        List.indexOf "ping" (topSort [("sleep", ["ping"]), ("ping", ["redis"]), ("redis", [])]
        ["sleep", "ping", "redis"]) :=
  topSort_places_dependency_earlier
    [("sleep", ["ping"]), ("ping", ["redis"]), ("redis", [])]
    ["sleep", "ping", "redis"]
    (acyclic_of_entry_rank _
      (fun w => if w = "sleep" then 2 else if w = "ping" then 1 else 0)
      (by decide))
    "ping" "redis" (by decide) (by decide) (by decide) (by decide)

/-- C2: For every dependency graph, `isCyclic` returns true exactly when the
graph contains a directed cycle, and the returned boolean does not depend on
the iteration order over the root vertex set. -/
theorem isCyclic_detects_cycles (g : Graph) (roots1 roots2 : List String)
    (h1 : ∀ k ∈ keys g, k ∈ roots1) (h2 : ∀ k ∈ keys g, k ∈ roots2) :
    (isCyclic g roots1 = true ↔ Cyclic g) ∧
      isCyclic g roots1 = isCyclic g roots2 := by
  have hiff1 : isCyclic g roots1 = true ↔ Cyclic g :=
    ⟨isCyclic_sound, isCyclic_complete h1⟩
  have hiff2 : isCyclic g roots2 = true ↔ Cyclic g :=
    ⟨isCyclic_sound, isCyclic_complete h2⟩
  refine ⟨hiff1, ?_⟩
  by_cases hb : isCyclic g roots1 = true
  · rw [hb, hiff2.mpr (hiff1.mp hb)]
  · have h1f : isCyclic g roots1 = false := by
      rwa [Bool.not_eq_true] at hb
    have h2f : isCyclic g roots2 = false := by
      by_contra h2c
      rw [Bool.not_eq_false] at h2c
      exact hb (hiff1.mpr (hiff2.mp h2c))
    rw [h1f, h2f]

theorem isCyclic_detects_cycles_witness :
    (isCyclic [("a", ["b"]), ("b", ["a"])] ["a", "b"] = true ↔
        Cyclic [("a", ["b"]), ("b", ["a"])]) ∧
      isCyclic [("a", ["b"]), ("b", ["a"])] ["a", "b"] =
        isCyclic [("a", ["b"]), ("b", ["a"])] ["b", "a"] :=
  isCyclic_detects_cycles [("a", ["b"]), ("b", ["a"])] ["a", "b"] ["b", "a"]
    (by decide) (by decide)

/-- C3: the claim states that a dependency name with no corresponding
declared service never appears in the output of `topSort`.  The code
violates this: for the graph with the single declared service "a" depending
on the undeclared name "b", the postorder traversal still emits "b". -/
theorem topSort_emits_undeclared_dependency :
    "b" ∉ keys [("a", ["b"])] ∧ "b" ∈ topSort [("a", ["b"])] ["a"] := by
  decide

/-! ## Lemmas about the supervisor operations -/

lemma checkDeps_false_of_dep_inactive {f : Foreman} {serviceName d : String}
    (hd : d ∈ (getService f.services serviceName).deps)
    (hin : (getService f.services d).active = false) :
    checkDeps f serviceName = false := by
  rw [Bool.eq_false_iff]
  intro hall
  simp only [checkDeps, List.all_eq_true] at hall
  have hda := hall d hd
  rw [hin] at hda
  exact absurd hda (by decide)

lemma startService_broken {f : Foreman} {spawn : Option Nat}
    {serviceName : String} (hcd : checkDeps f serviceName = false) :
    startService f spawn serviceName =
      StartResult.mk f (some ForemanError.brokenDependency) false := by
  unfold startService
  rw [if_pos hcd]

lemma startService_preserves_active (f : Foreman) (spawn : Option Nat)
    (serviceName : String) :
    (startService f spawn serviceName).foreman.active = f.active := by
  unfold startService
  by_cases hcd : checkDeps f serviceName = false
  · rw [if_pos hcd]
  · rw [if_neg hcd]
    cases spawn with
    | none => rfl
    | some pid => rfl

lemma handleChild_inactive {f : Foreman} (spawn : Option Nat)
    (serviceName : String) (z : Bool) (hf : f.active = false) :
    (handleChildService f spawn serviceName z).restartInvoked = false ∧
      (handleChildService f spawn serviceName z).foreman.active = false := by
  unfold handleChildService
  cases z with
  | false =>
    rw [if_pos rfl]
    exact ⟨rfl, hf⟩
  | true =>
    rw [if_neg (by simp)]
    rw [if_neg (fun h => by rw [hf] at h; exact absurd h.2 (by decide))]
    exact ⟨rfl, hf⟩

lemma sigChildHandler_inactive (zombie : String → Bool)
    (spawn : String → Option Nat) :
    ∀ (order : List String) (f : Foreman), f.active = false →
      (sigChildHandler zombie spawn order f).2 = [] ∧
        (sigChildHandler zombie spawn order f).1.active = false := by
  intro order
  induction order with
  | nil =>
    intro f hf
    exact ⟨rfl, hf⟩
  | cons name rest ih =>
    intro f hf
    obtain ⟨hri, hact⟩ := handleChild_inactive (spawn name) name (zombie name) hf
    obtain ⟨h2, h1⟩ :=
      ih (handleChildService f (spawn name) name (zombie name)).foreman hact
    unfold sigChildHandler
    rw [hri]
    exact ⟨by rw [h2]; simp, h1⟩

lemma checkerLoop_exit_iff (f : Foreman) (serviceName : String) :
    ∀ ticks : List TickOracle,
      ((checkerLoop f serviceName ticks).2 = true ↔
        ∃ t ∈ ticks, t.alive = false) := by
  intro ticks
  induction ticks with
  | nil =>
    simp [checkerLoop]
  | cons t rest ih =>
    unfold checkerLoop
    by_cases ht : t.alive = false
    · have h1 : (checkerTick f serviceName t).1 = true := by
        unfold checkerTick
        rw [if_pos ht]
      rw [h1]
      simp only [if_pos rfl]
      constructor
      · intro _
        exact ⟨t, List.mem_cons_self _ _, ht⟩
      · intro _
        rfl
    · have h1 : (checkerTick f serviceName t).1 = false := by
        unfold checkerTick
        rw [if_neg ht]
      rw [h1]
      rw [if_neg (by decide)]
      constructor
      · intro h
        obtain ⟨t0, ht0, ha⟩ := ih.mp h
        exact ⟨t0, List.mem_cons_of_mem _ ht0, ha⟩
      · intro h
        obtain ⟨t0, ht0, ha⟩ := h
        rcases List.mem_cons.mp ht0 with h0 | h0
        · subst h0
          exact absurd ha ht
        · exact ih.mpr ⟨t0, h0, ha⟩

/-- C4: For every Foreman whose dependency graph contains a cycle, `Start`
returns the cyclic-dependency error, no service is spawned, and the
registry's runtime state is unchanged by the call. -/
theorem start_cyclic_returns_error_and_spawns_nothing (f : Foreman)
    (spawn : String → Option Nat) (order : List String)
    (hk : ∀ k ∈ keys (buildDependencyGraph f), k ∈ order)
    (hcyc : Cyclic (buildDependencyGraph f)) :
    start f spawn order =
      StartAllResult.mk f (some ForemanError.cyclicDependency) [] := by
  unfold start
  rw [if_pos (isCyclic_complete hk hcyc)]

theorem start_cyclic_returns_error_and_spawns_nothing_witness :
    start exCyclicForeman (fun _ => some 1) ["a", "b"] =
      StartAllResult.mk exCyclicForeman (some ForemanError.cyclicDependency) [] :=
  start_cyclic_returns_error_and_spawns_nothing exCyclicForeman (fun _ => some 1)
    ["a", "b"] (by decide)
    ⟨"a", Relation.TransGen.head
      (by decide : Edge (buildDependencyGraph exCyclicForeman) "a" "b")
      (Relation.TransGen.single
        (by decide : Edge (buildDependencyGraph exCyclicForeman) "b" "a"))⟩

/-- C5: Starting a service one of whose declared dependencies is not active
in the registry fails with the broken-dependency error, attempts no spawn,
and leaves the entire registry (in particular that service's entry) in its
prior state. -/
theorem startService_broken_dependency_no_spawn (f : Foreman)
    (spawn : Option Nat) (serviceName d : String)
    (hd : d ∈ (getService f.services serviceName).deps)
    (hin : (getService f.services d).active = false) :
    startService f spawn serviceName =
      StartResult.mk f (some ForemanError.brokenDependency) false :=
  startService_broken (checkDeps_false_of_dep_inactive hd hin)

theorem startService_broken_dependency_no_spawn_witness :
    startService exRegistry (some 7) "web" =
      StartResult.mk exRegistry (some ForemanError.brokenDependency) false :=
  startService_broken_dependency_no_spawn exRegistry (some 7) "web" "db"
    (by decide) (by decide)

/-- C6: When a child-termination notification is handled for a terminated
(zombie) service: if the service is not run-once and the system is active,
`startService` is invoked again for it (restart); if the service is
run-once, it is never restarted, regardless of system activity. -/
theorem sigchld_restart_policy (f : Foreman) (spawn : Option Nat)
    (serviceName : String) :
    ((getService f.services serviceName).runOnce = false → f.active = true →
      (handleChildService f spawn serviceName true).restartInvoked = true) ∧
    ((getService f.services serviceName).runOnce = true →
      (handleChildService f spawn serviceName true).restartInvoked = false) := by
  constructor
  · intro hro hact
    unfold handleChildService
    rw [if_neg (by simp)]
    rw [if_pos ⟨hro, hact⟩]
  · intro hro
    unfold handleChildService
    rw [if_neg (by simp)]
    have hcond : ¬((deactivate (getService f.services serviceName)).runOnce = false ∧
        f.active = true) := by
      intro h
      have h1 : (getService f.services serviceName).runOnce = false := h.1
      rw [hro] at h1
      exact absurd h1 (by decide)
    rw [if_neg hcond]

theorem sigchld_restart_policy_witness :
    (handleChildService exRegistry (some 9) "web" true).restartInvoked = true ∧
      (handleChildService exRegistry none "job" true).restartInvoked = false :=
  ⟨(sigchld_restart_policy exRegistry (some 9) "web").1 (by decide) (by decide),
    (sigchld_restart_policy exRegistry none "job").2 (by decide)⟩

/-- C7: Once the system-active flag is false it is terminal: handling
child-termination notifications restarts nothing and keeps the flag false,
`startService` keeps the flag false, and the interrupt handler keeps it
false. -/
theorem system_inactive_is_terminal (f : Foreman) (zombie : String → Bool)
    (spawn : String → Option Nat) (order : List String) (sp : Option Nat)
    (serviceName : String) (hf : f.active = false) :
    (sigChildHandler zombie spawn order f).2 = [] ∧
      (sigChildHandler zombie spawn order f).1.active = false ∧
      (startService f sp serviceName).foreman.active = false ∧
      (sigIntHandler f).active = false := by
  obtain ⟨h2, h1⟩ := sigChildHandler_inactive zombie spawn order f hf
  refine ⟨h2, h1, ?_, rfl⟩
  rw [startService_preserves_active]
  exact hf

theorem system_inactive_is_terminal_witness :
    (sigChildHandler (fun _ => true) (fun _ => some 3)
        ["web", "db", "job"] exStopped).2 = [] ∧
      (sigChildHandler (fun _ => true) (fun _ => some 3)
        ["web", "db", "job"] exStopped).1.active = false ∧
      (startService exStopped none "db").foreman.active = false ∧
      (sigIntHandler exStopped).active = false :=
  system_inactive_is_terminal exStopped (fun _ => true) (fun _ => some 3)
    ["web", "db", "job"] none "db" (by decide)

/-- C8: If the process spawn fails inside `startService` (after the
dependency check passed), the spawn error is returned and the registry is
unchanged, so the service's process handle and active flag keep their prior
values. -/
theorem startService_spawn_failure_keeps_state (f : Foreman)
    (serviceName : String) (hdeps : checkDeps f serviceName = true) :
    startService f none serviceName =
      StartResult.mk f (some ForemanError.spawnError) true := by
  unfold startService
  rw [if_neg (by rw [hdeps]; decide)]

theorem startService_spawn_failure_keeps_state_witness :
    startService exRegistry none "db" =
      StartResult.mk exRegistry (some ForemanError.spawnError) true :=
  startService_spawn_failure_keeps_state exRegistry "db" (by decide)

/-- C9: Within one checker tick whose liveness probe succeeds, the tick does
not terminate the loop, every failing check category (dependency, command,
tcp ports, udp ports) sends an interrupt signal, and each category
contributes its signal independently of the others; the checker loop returns
exactly when some tick's liveness probe finds the process gone. -/
theorem checker_failure_signals_without_stopping (f : Foreman)
    (serviceName : String) (t : TickOracle) (ticks : List TickOracle)
    (halive : t.alive = true) :
    (checkerTick f serviceName t).1 = false ∧
      (checkDeps f serviceName = false → 0 < (checkerTick f serviceName t).2) ∧
      (t.cmdOk = false → 0 < (checkerTick f serviceName t).2) ∧
      (t.tcpOk = false → 0 < (checkerTick f serviceName t).2) ∧
      (t.udpOk = false → 0 < (checkerTick f serviceName t).2) ∧
      (checkerTick f serviceName t).2 =
        (if checkDeps f serviceName = true then 0 else 1) +
          (if t.cmdOk = true then 0 else 1) +
          (if t.tcpOk = true then 0 else 1) +
          (if t.udpOk = true then 0 else 1) ∧
      ((checkerLoop f serviceName ticks).2 = true ↔
        ∃ t0 ∈ ticks, t0.alive = false) := by
  have hne : ¬t.alive = false := by
    rw [halive]
    decide
  have htick : checkerTick f serviceName t =
      (false,
        (if checkDeps f serviceName = true then 0 else 1) +
          (if t.cmdOk = true then 0 else 1) +
          (if t.tcpOk = true then 0 else 1) +
          (if t.udpOk = true then 0 else 1)) := by
    unfold checkerTick
    rw [if_neg hne]
  rw [htick]
  refine ⟨rfl, ?_, ?_, ?_, ?_, rfl, checkerLoop_exit_iff f serviceName ticks⟩
  · intro h
    rw [h, if_neg (show ¬(false = true) by decide)]
    omega
  · intro h
    rw [h, if_neg (show ¬(false = true) by decide)]
    omega
  · intro h
    rw [h, if_neg (show ¬(false = true) by decide)]
    omega
  · intro h
    rw [h, if_neg (show ¬(false = true) by decide)]
    omega

theorem checker_failure_signals_without_stopping_witness :
    (checkerTick exRegistry "web" (TickOracle.mk true false false false)).1 = false ∧
      (checkDeps exRegistry "web" = false →
        0 < (checkerTick exRegistry "web" (TickOracle.mk true false false false)).2) ∧
      ((TickOracle.mk true false false false).cmdOk = false →
        0 < (checkerTick exRegistry "web" (TickOracle.mk true false false false)).2) ∧
      ((TickOracle.mk true false false false).tcpOk = false →
        0 < (checkerTick exRegistry "web" (TickOracle.mk true false false false)).2) ∧
      ((TickOracle.mk true false false false).udpOk = false →
        0 < (checkerTick exRegistry "web" (TickOracle.mk true false false false)).2) ∧
      (checkerTick exRegistry "web" (TickOracle.mk true false false false)).2 =
        (if checkDeps exRegistry "web" = true then 0 else 1) +
          (if (TickOracle.mk true false false false).cmdOk = true then 0 else 1) +
          (if (TickOracle.mk true false false false).tcpOk = true then 0 else 1) +
          (if (TickOracle.mk true false false false).udpOk = true then 0 else 1) ∧
      ((checkerLoop exRegistry "web"
          [TickOracle.mk true true true true,
            TickOracle.mk false true true true]).2 = true ↔
        ∃ t0 ∈ [TickOracle.mk true true true true,
            TickOracle.mk false true true true], t0.alive = false) :=
  checker_failure_signals_without_stopping exRegistry "web"
    (TickOracle.mk true false false false)
    [TickOracle.mk true true true true, TickOracle.mk false true true true]
    (by decide)

/-- C10: If a service's declared dependency list contains a name with no
entry in the registry, the missing key reads as the zero-value service whose
active flag is false, so `checkDeps` fails, and `startService` for that
service fails with the broken-dependency error without attempting a
spawn. -/
theorem missing_dependency_blocks_start (f : Foreman) (spawn : Option Nat)
    (serviceName d : String)
    (hd : d ∈ (getService f.services serviceName).deps)
    (hmiss : f.services.lookup d = none) :
    (getService f.services d).active = false ∧
      checkDeps f serviceName = false ∧
      startService f spawn serviceName =
        StartResult.mk f (some ForemanError.brokenDependency) false := by
  have hz : (getService f.services d).active = false := by
    unfold getService
    rw [hmiss]
    rfl
  exact ⟨hz, checkDeps_false_of_dep_inactive hd hz,
    startService_broken (checkDeps_false_of_dep_inactive hd hz)⟩

theorem missing_dependency_blocks_start_witness :
    (getService exOrphan.services "ghost").active = false ∧
      checkDeps exOrphan "orphan" = false ∧
      startService exOrphan (some 11) "orphan" =
        StartResult.mk exOrphan (some ForemanError.brokenDependency) false :=
  missing_dependency_blocks_start exOrphan (some 11) "orphan" "ghost"
    (by decide) (by decide)

end Foreman
